import Mathlib

/-!
Shallow embedding of `src/cachelib/lrucache.py` (an LRU cache with optional
TTL expiry plus a memoizing decorator) and proofs about it.

Modelling conventions:
* `time.time()` is modelled by an explicit `now : Nat` argument threaded into
  each operation; `set` stores the absolute expiration `now + ttl`.
* The `OrderedDict` store is modelled as an association list in recency
  order: the head is the least-recently-used entry (`popitem(last=False)`
  pops the head), the last element is the most-recently-used one.
* Python exceptions are modelled with `Except`: `popitem` on an empty store
  raises `KeyError`, `make_hashable` raises `TypeError` for unhashable
  values.  A raising call yields `.error`; no partial state is observed.
* Python values handed to the decorator are modelled by the inductive
  `PyObj` (tuples, lists, dicts, sets, ints, strings, opaque hashable
  objects, opaque unhashable objects); canonicalized keys by `HashV`.
* The Python `None` result of a wrapped function is modelled by `Option β`
  with `none` playing the role of `None`; the engine's `get` returning
  `None` on a miss and the stored value on a hit is the `Option.join` of
  the model's `Option (Option β)` result, exactly as the `cached is not
  None` test in `wrapper` sees it.
* Locking (`with self.lock`) is sequential mutual exclusion; the sequential
  semantics modelled here is the body of each critical section.
-/

/-- Python call-argument values, as far as `make_hashable` distinguishes
them: tuples, lists, dicts, sets, ints, strings, other hashable leaf
objects and unhashable leaf objects (e.g. instances of a class with
`__hash__ = None`), the latter two identified by an opaque id. -/
inductive PyObj where
  | tupleV (items : List PyObj)
  | listV (items : List PyObj)
  | dictV (items : List (PyObj × PyObj))
  | setV (items : List PyObj)
  | intV (n : Int)
  | strV (s : String)
  | hashObj (id : Nat)
  | unhashObj (id : Nat)

/-- Canonicalized hashable values produced by `make_hashable`: tuples,
frozensets and pass-through scalars. -/
inductive HashV where
  | tupleH (items : List HashV)
  | frozensetH (items : List HashV)
  | intH (n : Int)
  | strH (s : String)
  | objH (id : Nat)

mutual

/-- Structural boolean equality on `HashV`, mirroring Python `==` on the
values `make_hashable` produces (mixed-type comparisons are `False`, never
an error). -/
def HashV.beq : HashV → HashV → Bool
  | .tupleH as, .tupleH bs => HashV.beqList as bs
  | .frozensetH as, .frozensetH bs => HashV.beqList as bs
  | .intH a, .intH b => a == b
  | .strH a, .strH b => a == b
  | .objH a, .objH b => a == b
  | _, _ => false

/-- Elementwise equality of `HashV` lists. -/
def HashV.beqList : List HashV → List HashV → Bool
  | [], [] => true
  | a :: as, b :: bs => HashV.beq a b && HashV.beqList as bs
  | _, _ => false

end

mutual

theorem HashV.beq_iff : (a b : HashV) → (HashV.beq a b = true ↔ a = b)
  | .tupleH as, .tupleH bs => by
      simp [HashV.beq, HashV.beqList_iff as bs]
  | .frozensetH as, .frozensetH bs => by
      simp [HashV.beq, HashV.beqList_iff as bs]
  | .intH a, .intH b => by simp [HashV.beq]
  | .strH a, .strH b => by simp [HashV.beq]
  | .objH a, .objH b => by simp [HashV.beq]
  | .tupleH _, .frozensetH _ => by simp [HashV.beq]
  | .tupleH _, .intH _ => by simp [HashV.beq]
  | .tupleH _, .strH _ => by simp [HashV.beq]
  | .tupleH _, .objH _ => by simp [HashV.beq]
  | .frozensetH _, .tupleH _ => by simp [HashV.beq]
  | .frozensetH _, .intH _ => by simp [HashV.beq]
  | .frozensetH _, .strH _ => by simp [HashV.beq]
  | .frozensetH _, .objH _ => by simp [HashV.beq]
  | .intH _, .tupleH _ => by simp [HashV.beq]
  | .intH _, .frozensetH _ => by simp [HashV.beq]
  | .intH _, .strH _ => by simp [HashV.beq]
  | .intH _, .objH _ => by simp [HashV.beq]
  | .strH _, .tupleH _ => by simp [HashV.beq]
  | .strH _, .frozensetH _ => by simp [HashV.beq]
  | .strH _, .intH _ => by simp [HashV.beq]
  | .strH _, .objH _ => by simp [HashV.beq]
  | .objH _, .tupleH _ => by simp [HashV.beq]
  | .objH _, .frozensetH _ => by simp [HashV.beq]
  | .objH _, .intH _ => by simp [HashV.beq]
  | .objH _, .strH _ => by simp [HashV.beq]

theorem HashV.beqList_iff : (as bs : List HashV) → (HashV.beqList as bs = true ↔ as = bs)
  | [], [] => by simp [HashV.beqList]
  | [], _ :: _ => by simp [HashV.beqList]
  | _ :: _, [] => by simp [HashV.beqList]
  | a :: as, b :: bs => by
      simp [HashV.beqList, HashV.beq_iff a b, HashV.beqList_iff as bs]

end

instance : DecidableEq HashV := fun a b => decidable_of_iff _ (HashV.beq_iff a b)

instance [DecidableEq ε] [DecidableEq α] : DecidableEq (Except ε α) := fun a b =>
  match a, b with
  | .ok x, .ok y => if h : x = y then .isTrue (by rw [h]) else .isFalse (by simp [h])
  | .error x, .error y => if h : x = y then .isTrue (by rw [h]) else .isFalse (by simp [h])
  | .ok _, .error _ => .isFalse (by simp)
  | .error _, .ok _ => .isFalse (by simp)

/-- The `TypeError` raised by `make_hashable` for unhashable values (and by
Python comparison of incomparable values inside `sorted`). -/
inductive MHError where
  | typeError
deriving DecidableEq

/-- The `KeyError` raised by `OrderedDict.popitem` on an empty store. -/
inductive CacheError where
  | keyError
deriving DecidableEq

/-- Errors observable from a call to the memoizing `wrapper`. -/
inductive WrapError where
  | typeError
  | keyError
deriving DecidableEq

/-- Python `<` on single characters, by code point. -/
def pyCharLt (a b : Char) : Bool := decide (a.toNat < b.toNat)

/-- Python `<` on strings as lists of characters: lexicographic by code
point. -/
def pyCharsLt : List Char → List Char → Bool
  | [], [] => false
  | [], _ :: _ => true
  | _ :: _, [] => false
  | a :: as, b :: bs => if a = b then pyCharsLt as bs else pyCharLt a b

/-- Python `<` on strings. -/
def pyStrLt (a b : String) : Bool := pyCharsLt a.data b.data

mutual

/-- Python `<` on canonicalized values, as used by `sorted` inside the
`dict` branch of `make_hashable`.  Same-type scalars compare by value,
tuples lexicographically, frozensets by proper-subset (membership taken
structurally); any cross-type or object-object comparison raises
`TypeError`, as in Python. -/
def hashLt : HashV → HashV → Except MHError Bool
  | .intH a, .intH b => .ok (decide (a < b))
  | .strH a, .strH b => .ok (pyStrLt a b)
  | .tupleH as, .tupleH bs => tupleLt as bs
  | .frozensetH as, .frozensetH bs =>
      .ok ((as.all fun a => bs.contains a) && !(bs.all fun b => as.contains b))
  | _, _ => .error .typeError

/-- Python tuple `<`: skip the longest common (by `==`) head, then compare
the first differing elements; a strict proper-head tuple is smaller. -/
def tupleLt : List HashV → List HashV → Except MHError Bool
  | [], [] => .ok false
  | [], _ :: _ => .ok true
  | _ :: _, [] => .ok false
  | a :: as, b :: bs => if a = b then tupleLt as bs else hashLt a b

end

/-- Insert one element into an already sorted list using the (possibly
raising) Python comparison; models the comparison-based placement done by
`sorted`. -/
def insertE (x : HashV) : List HashV → Except MHError (List HashV)
  | [] => .ok [x]
  | y :: ys => do
      if (← hashLt x y) then
        .ok (x :: y :: ys)
      else
        .ok (y :: (← insertE x ys))

/-- Comparison sort with the Python `<` comparison, modelling `sorted`.
On inputs whose elements are pairwise comparable and pairwise distinct —
the case the dict branch of `make_hashable` relies on for keyword
arguments — every comparison sort produces the same output, so an
insertion sort is a faithful model of `sorted` there. -/
def sortE : List HashV → Except MHError (List HashV)
  | [] => .ok []
  | x :: xs => do insertE x (← sortE xs)

mutual

/-- Embedding of `make_hashable`: tuples and lists become tuples of
canonicalized items; dicts become tuples of `sorted` canonicalized
`(key, value)` pairs; sets become frozensets; hashable scalars pass
through; anything else raises `TypeError`. -/
def make_hashable : PyObj → Except MHError HashV
  | .tupleV items => do .ok (.tupleH (← mhList items))
  | .listV items => do .ok (.tupleH (← mhList items))
  | .dictV items => do
      let ps ← mhPairs items
      let sorted ← sortE ps
      .ok (.tupleH sorted)
  | .setV items => do .ok (.frozensetH (← mhList items))
  | .intV n => .ok (.intH n)
  | .strV s => .ok (.strH s)
  | .hashObj i => .ok (.objH i)
  | .unhashObj _ => .error .typeError

/-- Canonicalize the items of a tuple, list or set in order. -/
def mhList : List PyObj → Except MHError (List HashV)
  | [] => .ok []
  | x :: xs => do .ok ((← make_hashable x) :: (← mhList xs))

/-- Canonicalize dict items into `(make_hashable k, make_hashable v)`
two-tuples, in iteration order, before sorting. -/
def mhPairs : List (PyObj × PyObj) → Except MHError (List HashV)
  | [] => .ok []
  | (k, v) :: rest => do
      let hk ← make_hashable k
      let hv ← make_hashable v
      .ok (.tupleH [hk, hv] :: (← mhPairs rest))

end

/-- Embedding of `LRUCache`: `max_size` is a Python int (no validation, so
it may be non-positive), `store` the `OrderedDict` in recency order (head
= least recently used), and the three observability counters. -/
structure LRUCache (K V : Type) where
  max_size : Int
  ttl : Option Nat
  store : List (K × V × Option Nat)
  hits : Nat
  misses : Nat
  evictions : Nat
deriving DecidableEq

/-- Embedding of `LRUCache.__init__` (which performs no validation of
`max_size`). -/
def LRUCache.init (max_size : Int) (ttl : Option Nat) : LRUCache K V :=
  { max_size := max_size, ttl := ttl, store := [], hits := 0, misses := 0, evictions := 0 }

/-- Embedding of `LRUCache._is_expired`: no timestamp means never expired,
otherwise expired iff `now` is strictly past the stored timestamp. -/
def is_expired (now : Nat) : Option Nat → Bool
  | none => false
  | some e => decide (now > e)

/-- Dictionary lookup `store[key]` on the association-list store. -/
def lookupStore [DecidableEq K] (k : K) : List (K × V × Option Nat) → Option (V × Option Nat)
  | [] => none
  | (k', v, e) :: rest => if k' = k then some (v, e) else lookupStore k rest

/-- Dictionary deletion `del store[key]`, removing the (unique) entry for
the key and preserving the order of all others. -/
def removeKey [DecidableEq K] (k : K) : List (K × V × Option Nat) → List (K × V × Option Nat)
  | [] => []
  | (k', v, e) :: rest => if k' = k then rest else (k', v, e) :: removeKey k rest

/-- Combined effect of `move_to_end(key)` (for a present key) followed by
`store[key] = (value, expiration)`: the key's old entry (if any) leaves its
position and the new entry sits at the most-recently-used end. -/
def setStore [DecidableEq K] (k : K) (v : V) (e : Option Nat)
    (l : List (K × V × Option Nat)) : List (K × V × Option Nat) :=
  removeKey k l ++ [(k, v, e)]

/-- Embedding of `LRUCache._evict_if_needed`: pop from the
least-recently-used end while the store is over capacity, counting
evictions; `popitem(last=False)` on an empty store raises `KeyError`
(reachable exactly when `max_size` is negative). -/
def evictLoop (m : Int) : List (K × V × Option Nat) → Nat →
    Except CacheError (List (K × V × Option Nat) × Nat)
  | [], ev => if (0 : Int) > m then .error .keyError else .ok ([], ev)
  | x :: rest, ev =>
      if ((x :: rest).length : Int) > m then evictLoop m rest (ev + 1)
      else .ok (x :: rest, ev)

/-- Embedding of `LRUCache.set`: compute the expiration, insert or
overwrite at the most-recently-used end, then evict while over capacity. -/
def LRUCache.set [DecidableEq K] (c : LRUCache K V) (now : Nat) (k : K) (v : V) :
    Except CacheError (LRUCache K V) := do
  let expiration : Option Nat := c.ttl.map fun t => now + t
  let store2 := setStore k v expiration c.store
  let (store3, evicted) ← evictLoop c.max_size store2 0
  .ok { c with store := store3, evictions := c.evictions + evicted }

/-- Embedding of `LRUCache.get`: absent key counts a miss; present but
expired key is deleted and counts a miss; present live key is moved to the
most-recently-used end, counts a hit and its value is returned. -/
def LRUCache.get [DecidableEq K] (c : LRUCache K V) (now : Nat) (k : K) :
    Option V × LRUCache K V :=
  match lookupStore k c.store with
  | none => (none, { c with misses := c.misses + 1 })
  | some (v, expiration) =>
      if is_expired now expiration then
        (none, { c with store := removeKey k c.store, misses := c.misses + 1 })
      else
        (some v, { c with store := setStore k v expiration c.store, hits := c.hits + 1 })

/-- Embedding of `LRUCache.__contains__`: like `get` for expiry discovery
but touching neither the counters nor the recency order. -/
def LRUCache.containsKey [DecidableEq K] (c : LRUCache K V) (now : Nat) (k : K) :
    Bool × LRUCache K V :=
  match lookupStore k c.store with
  | none => (false, c)
  | some (_, expiration) =>
      if is_expired now expiration then
        (false, { c with store := removeKey k c.store })
      else
        (true, c)

/-- Embedding of `LRUCache.delete`: remove the key if present (no expiry
check, no counter effect) and report whether it was present. -/
def LRUCache.delete [DecidableEq K] (c : LRUCache K V) (k : K) : Bool × LRUCache K V :=
  match lookupStore k c.store with
  | none => (false, c)
  | some _ => (true, { c with store := removeKey k c.store })

/-- Embedding of `LRUCache.clear`: `store.clear()` only — the counters are
untouched. -/
def LRUCache.clear (c : LRUCache K V) : LRUCache K V :=
  { c with store := [] }

/-- Embedding of `LRUCache.resize`: install the new capacity then run the
same eviction loop as `set`. -/
def LRUCache.resize [DecidableEq K] (c : LRUCache K V) (new_max_size : Int) :
    Except CacheError (LRUCache K V) := do
  let (store2, evicted) ← evictLoop new_max_size c.store 0
  .ok { c with max_size := new_max_size, store := store2, evictions := c.evictions + evicted }

/-- The snapshot returned by `LRUCache.stats`. -/
structure Stats where
  hits : Nat
  misses : Nat
  evictions : Nat
  current_size : Nat
deriving DecidableEq

/-- Embedding of `LRUCache.stats`. -/
def LRUCache.stats (c : LRUCache K V) : Stats :=
  { hits := c.hits, misses := c.misses, evictions := c.evictions,
    current_size := c.store.length }

/-- One public cache operation, with the observation time for the
operations that consult the clock. -/
inductive CacheOp (K V : Type) where
  | setOp (now : Nat) (k : K) (v : V)
  | getOp (now : Nat) (k : K)
  | containsOp (now : Nat) (k : K)
  | deleteOp (k : K)
  | clearOp
  | resizeOp (n : Int)

/-- Run one operation for its state effect. -/
def execOp [DecidableEq K] (c : LRUCache K V) : CacheOp K V → Except CacheError (LRUCache K V)
  | .setOp now k v => c.set now k v
  | .getOp now k => .ok (c.get now k).2
  | .containsOp now k => .ok (c.containsKey now k).2
  | .deleteOp k => .ok (c.delete k).2
  | .clearOp => .ok c.clear
  | .resizeOp n => c.resize n

/-- Run a sequence of operations, stopping at the first raised exception. -/
def execOps [DecidableEq K] (c : LRUCache K V) : List (CacheOp K V) →
    Except CacheError (LRUCache K V)
  | [] => .ok c
  | op :: rest => do execOps (← execOp c op) rest

/-- The `kwargs` dict of a Python call, from its textual keyword order. -/
def kwargsToDict (kwargs : List (String × PyObj)) : PyObj :=
  .dictV (kwargs.map fun p => (.strV p.1, p.2))

/-- Key derivation in `wrapper`:
`key = (make_hashable(args), make_hashable(kwargs))`, left to right, with a
`TypeError` propagating before the wrapped function runs. -/
def deriveKey (pargs : List PyObj) (kwargs : List (String × PyObj)) :
    Except MHError (HashV × HashV) := do
  let ka ← make_hashable (.tupleV pargs)
  let kw ← make_hashable (kwargsToDict kwargs)
  .ok (ka, kw)

/-- Embedding of the `wrapper` closure produced by `cache_decorator`.
The second component counts how many times the wrapped function `f` was
invoked during this call (`0` or `1`).  A Python `None` result is
`none`; the `cached is not None` test sees the `Option.join` of the
engine's reply, so a stored `none` is indistinguishable from a miss. -/
def wrapper (f : List PyObj → List (String × PyObj) → Option β)
    (c : LRUCache (HashV × HashV) (Option β)) (now : Nat)
    (pargs : List PyObj) (kwargs : List (String × PyObj)) :
    Except WrapError (Option β × LRUCache (HashV × HashV) (Option β)) × Nat :=
  match deriveKey pargs kwargs with
  | .error _ => (.error .typeError, 0)
  | .ok key =>
      let (cached, c1) := c.get now key
      match cached.join with
      | some x => (.ok (some x, c1), 0)
      | none =>
          let value := f pargs kwargs
          match c1.set now key value with
          | .ok c2 => (.ok (value, c2), 1)
          | .error _ => (.error .keyError, 1)

/-! ### Basic store lemmas -/

theorem removeKey_length_le [DecidableEq K] (k : K) :
    ∀ l : List (K × V × Option Nat), (removeKey k l).length ≤ l.length
  | [] => le_refl _
  | (k', v, e) :: rest => by
      have ih := removeKey_length_le k rest
      by_cases h : k' = k
      · simp only [removeKey, if_pos h, List.length_cons]
        omega
      · simp only [removeKey, if_neg h, List.length_cons]
        omega

theorem lookupStore_some_removeKey_length [DecidableEq K] (k : K) :
    ∀ (l : List (K × V × Option Nat)) (p : V × Option Nat),
      lookupStore k l = some p → (removeKey k l).length + 1 = l.length
  | [], p => by simp [lookupStore]
  | (k', v, e) :: rest, p => by
      by_cases h : k' = k
      · simp [lookupStore, removeKey, h]
      · simp only [lookupStore, removeKey, h, if_neg h]
        intro hl
        simp [lookupStore_some_removeKey_length k rest p hl]

theorem setStore_length [DecidableEq K] (k : K) (v : V) (e : Option Nat)
    (l : List (K × V × Option Nat)) :
    (setStore k v e l).length = (removeKey k l).length + 1 := by
  simp [setStore]

/-! ### Eviction-loop lemmas -/

theorem evictLoop_nil_pos {m : Int} (h : (0 : Int) > m) (ev : Nat) :
    evictLoop (K := K) (V := V) m [] ev = .error .keyError := by
  simp only [evictLoop]
  rw [if_pos h]

theorem evictLoop_nil_neg {m : Int} (h : ¬(0 : Int) > m) (ev : Nat) :
    evictLoop (K := K) (V := V) m [] ev = .ok ([], ev) := by
  simp only [evictLoop]
  rw [if_neg h]

theorem evictLoop_cons_pos {m : Int} {x : K × V × Option Nat}
    {rest : List (K × V × Option Nat)} (h : ((x :: rest).length : Int) > m) (ev : Nat) :
    evictLoop m (x :: rest) ev = evictLoop m rest (ev + 1) := by
  simp only [evictLoop]
  rw [if_pos h]

theorem evictLoop_cons_neg {m : Int} {x : K × V × Option Nat}
    {rest : List (K × V × Option Nat)} (h : ¬((x :: rest).length : Int) > m) (ev : Nat) :
    evictLoop m (x :: rest) ev = .ok (x :: rest, ev) := by
  simp only [evictLoop]
  rw [if_neg h]

theorem evictLoop_ok_of_nonneg {m : Int} (hm : 0 ≤ m) :
    ∀ (l : List (K × V × Option Nat)) (ev : Nat),
      ∃ l' ev', evictLoop m l ev = .ok (l', ev') ∧ (l'.length : Int) ≤ m
  | [], ev => ⟨[], ev, evictLoop_nil_neg (not_lt.mpr hm) ev, by simpa using hm⟩
  | x :: rest, ev => by
      by_cases h : ((x :: rest).length : Int) > m
      · obtain ⟨l', ev', hrun, hlen⟩ := evictLoop_ok_of_nonneg hm rest (ev + 1)
        exact ⟨l', ev', (evictLoop_cons_pos h ev).trans hrun, hlen⟩
      · exact ⟨x :: rest, ev, evictLoop_cons_neg h ev, not_lt.mp h⟩

theorem evictLoop_error_of_neg {m : Int} (hm : m < 0) :
    ∀ (l : List (K × V × Option Nat)) (ev : Nat), evictLoop m l ev = .error .keyError
  | [], ev => evictLoop_nil_pos hm ev
  | x :: rest, ev => by
      have h : ((x :: rest).length : Int) > m := lt_of_lt_of_le hm (by positivity)
      rw [evictLoop_cons_pos h ev]
      exact evictLoop_error_of_neg hm rest (ev + 1)

theorem evictLoop_suffix {m : Int} :
    ∀ (l : List (K × V × Option Nat)) (ev : Nat) (l' : List (K × V × Option Nat)) (ev' : Nat),
      evictLoop m l ev = .ok (l', ev') → ∃ pre, l = pre ++ l' ∧ ev' = ev + pre.length
  | [], ev, l', ev' => by
      by_cases h : (0 : Int) > m
      · rw [evictLoop_nil_pos h ev]
        intro hc
        exact absurd hc (by simp)
      · rw [evictLoop_nil_neg h ev]
        intro hc
        simp only [Except.ok.injEq, Prod.mk.injEq] at hc
        exact ⟨[], by simp [hc.1, hc.2]⟩
  | x :: rest, ev, l', ev' => by
      by_cases h : ((x :: rest).length : Int) > m
      · rw [evictLoop_cons_pos h ev]
        intro hrun
        obtain ⟨pre, hl, hev⟩ := evictLoop_suffix rest (ev + 1) l' ev' hrun
        refine ⟨x :: pre, by simp [hl], ?_⟩
        simp only [List.length_cons]
        omega
      · rw [evictLoop_cons_neg h ev]
        intro hc
        simp only [Except.ok.injEq, Prod.mk.injEq] at hc
        exact ⟨[], by simp [hc.1, hc.2]⟩

/-! ### Behaviour of set and resize -/

theorem set_ok_of_nonneg [DecidableEq K] (c : LRUCache K V) (now : Nat) (k : K) (v : V)
    (hm : 0 ≤ c.max_size) :
    ∃ c', c.set now k v = .ok c' ∧ c'.max_size = c.max_size ∧ c'.ttl = c.ttl ∧
      (c'.store.length : Int) ≤ c.max_size := by
  obtain ⟨l', ev', hrun, hlen⟩ :=
    evictLoop_ok_of_nonneg hm (setStore k v (c.ttl.map fun t => now + t) c.store) 0
  refine ⟨{ c with store := l', evictions := c.evictions + ev' }, ?_, rfl, rfl, hlen⟩
  simp [LRUCache.set, hrun, Bind.bind, Except.bind]

theorem set_error_of_neg [DecidableEq K] (c : LRUCache K V) (now : Nat) (k : K) (v : V)
    (hm : c.max_size < 0) :
    c.set now k v = .error .keyError := by
  simp [LRUCache.set, evictLoop_error_of_neg hm _ 0, Bind.bind, Except.bind]

theorem resize_ok_of_nonneg [DecidableEq K] (c : LRUCache K V) (n : Int) (hn : 0 ≤ n) :
    ∃ c', c.resize n = .ok c' ∧ c'.max_size = n ∧ c'.ttl = c.ttl ∧
      (c'.store.length : Int) ≤ n := by
  obtain ⟨l', ev', hrun, hlen⟩ := evictLoop_ok_of_nonneg hn c.store 0
  refine ⟨{ c with max_size := n, store := l', evictions := c.evictions + ev' },
    ?_, rfl, rfl, hlen⟩
  simp [LRUCache.resize, hrun, Bind.bind, Except.bind]

theorem resize_error_of_neg [DecidableEq K] (c : LRUCache K V) (n : Int) (hn : n < 0) :
    c.resize n = .error .keyError := by
  simp [LRUCache.resize, evictLoop_error_of_neg hn _ 0, Bind.bind, Except.bind]

/-! ### Frame lemmas for the read-mostly operations -/

theorem get_frame [DecidableEq K] (c : LRUCache K V) (now : Nat) (k : K) :
    (c.get now k).2.max_size = c.max_size ∧ (c.get now k).2.ttl = c.ttl ∧
    (c.get now k).2.evictions = c.evictions ∧
    (c.get now k).2.store.length ≤ c.store.length := by
  unfold LRUCache.get
  cases h : lookupStore k c.store with
  | none => simp
  | some p =>
      obtain ⟨v, exp⟩ := p
      by_cases he : is_expired now exp
      · simp [he, removeKey_length_le]
      · have := lookupStore_some_removeKey_length k c.store (v, exp) h
        simp [he, setStore_length]
        omega

theorem containsKey_frame [DecidableEq K] (c : LRUCache K V) (now : Nat) (k : K) :
    (c.containsKey now k).2.max_size = c.max_size ∧ (c.containsKey now k).2.ttl = c.ttl ∧
    (c.containsKey now k).2.hits = c.hits ∧ (c.containsKey now k).2.misses = c.misses ∧
    (c.containsKey now k).2.evictions = c.evictions ∧
    (c.containsKey now k).2.store.length ≤ c.store.length := by
  unfold LRUCache.containsKey
  cases h : lookupStore k c.store with
  | none => simp
  | some p =>
      obtain ⟨v, exp⟩ := p
      by_cases he : is_expired now exp
      · simp [he, removeKey_length_le]
      · simp [he]

theorem delete_frame [DecidableEq K] (c : LRUCache K V) (k : K) :
    (c.delete k).2.max_size = c.max_size ∧ (c.delete k).2.ttl = c.ttl ∧
    (c.delete k).2.hits = c.hits ∧ (c.delete k).2.misses = c.misses ∧
    (c.delete k).2.evictions = c.evictions ∧
    (c.delete k).2.store.length ≤ c.store.length := by
  unfold LRUCache.delete
  cases h : lookupStore k c.store with
  | none => simp
  | some p => simp [removeKey_length_le]

/-! ### The capacity invariant -/

/-- An operation sequence is valid when every `resize` in it targets a
positive capacity (the situation claimed by the spec's capacity
invariant). -/
def ValidOp : CacheOp K V → Prop
  | .resizeOp n => 0 < n
  | _ => True

instance : (op : CacheOp K V) → Decidable (ValidOp op)
  | .setOp _ _ _ => .isTrue trivial
  | .getOp _ _ => .isTrue trivial
  | .containsOp _ _ => .isTrue trivial
  | .deleteOp _ => .isTrue trivial
  | .clearOp => .isTrue trivial
  | .resizeOp n => inferInstanceAs (Decidable (0 < n))

theorem execOp_ok [DecidableEq K] (c : LRUCache K V) (op : CacheOp K V)
    (hop : ValidOp op) (hm : 0 ≤ c.max_size) (hinv : (c.store.length : Int) ≤ c.max_size) :
    ∃ c', execOp c op = .ok c' ∧ 0 ≤ c'.max_size ∧ (c'.store.length : Int) ≤ c'.max_size := by
  cases op with
  | setOp now k v =>
      obtain ⟨c', h, hmax, _, hlen⟩ := set_ok_of_nonneg c now k v hm
      exact ⟨c', h, by rw [hmax]; exact hm, by rw [hmax]; exact hlen⟩
  | getOp now k =>
      obtain ⟨hmax, _, _, hlen⟩ := get_frame c now k
      refine ⟨(c.get now k).2, rfl, by rw [hmax]; exact hm, ?_⟩
      rw [hmax]
      exact le_trans (by exact_mod_cast hlen) hinv
  | containsOp now k =>
      obtain ⟨hmax, _, _, _, _, hlen⟩ := containsKey_frame c now k
      refine ⟨(c.containsKey now k).2, rfl, by rw [hmax]; exact hm, ?_⟩
      rw [hmax]
      exact le_trans (by exact_mod_cast hlen) hinv
  | deleteOp k =>
      obtain ⟨hmax, _, _, _, _, hlen⟩ := delete_frame c k
      refine ⟨(c.delete k).2, rfl, by rw [hmax]; exact hm, ?_⟩
      rw [hmax]
      exact le_trans (by exact_mod_cast hlen) hinv
  | clearOp =>
      exact ⟨c.clear, rfl, hm, by simp [LRUCache.clear]; exact hm⟩
  | resizeOp n =>
      obtain ⟨c', h, hmax, _, hlen⟩ := resize_ok_of_nonneg c n (le_of_lt hop)
      exact ⟨c', h, by rw [hmax]; exact le_of_lt hop, by rw [hmax]; exact hlen⟩

theorem execOps_ok [DecidableEq K] :
    ∀ (ops : List (CacheOp K V)) (c : LRUCache K V),
      (∀ op ∈ ops, ValidOp op) → 0 ≤ c.max_size → (c.store.length : Int) ≤ c.max_size →
      ∃ c', execOps c ops = .ok c' ∧ 0 ≤ c'.max_size ∧ (c'.store.length : Int) ≤ c'.max_size
  | [], c => fun _ hm hinv => ⟨c, rfl, hm, hinv⟩
  | op :: rest, c => fun hops hm hinv => by
      obtain ⟨c1, h1, hm1, hinv1⟩ := execOp_ok c op (hops op (by simp)) hm hinv
      obtain ⟨c', h', hm', hinv'⟩ :=
        execOps_ok rest c1 (fun o ho => hops o (by simp [ho])) hm1 hinv1
      exact ⟨c', by simp [execOps, h1, Bind.bind, Except.bind, h'], hm', hinv'⟩

/-- C1: for every cache engine constructed with a positive `max_size`,
every sequence of mutating operations (any `set`, `delete`, `clear`, and
`resize` to positive capacities, with `get`/`contains` allowed as well)
executes without error, and after it returns — hence after every prefix,
i.e. after every single operation — the number of stored entries is at
most the current `max_size`. -/
theorem C1_capacity_invariant (K V : Type) [DecidableEq K] (m : Int) (t : Option Nat)
    (ops : List (CacheOp K V)) (hm : 0 < m) (hops : ∀ op ∈ ops, ValidOp op) :
    ∃ c', execOps (LRUCache.init m t) ops = .ok c' ∧
      (c'.store.length : Int) ≤ c'.max_size := by
  obtain ⟨c', h, _, hinv⟩ :=
    execOps_ok ops (LRUCache.init m t) hops (le_of_lt hm)
      (by simpa [LRUCache.init] using le_of_lt hm)
  exact ⟨c', h, hinv⟩

/-- Witness for C1 at a concrete engine and operation sequence. -/
theorem C1_capacity_invariant_witness :
    (0 : Int) < 2 ∧
    (∀ op ∈ ([.setOp 0 0 1, .setOp 0 1 2, .setOp 0 2 3, .resizeOp 1] : List (CacheOp Nat Nat)),
      ValidOp op) ∧
    ∃ c', execOps (LRUCache.init 2 none)
        ([.setOp 0 0 1, .setOp 0 1 2, .setOp 0 2 3, .resizeOp 1] : List (CacheOp Nat Nat))
        = .ok c' ∧
      (c'.store.length : Int) ≤ c'.max_size :=
  ⟨by decide, by decide, C1_capacity_invariant Nat Nat 2 none _ (by decide) (by decide)⟩

/-! ### Recency-order helper lemmas -/

theorem get_hit_moves_to_end [DecidableEq K] (c : LRUCache K V) (now : Nat) (k : K)
    (v : V) (c' : LRUCache K V) (h : c.get now k = (some v, c')) :
    ∃ e, c'.store = removeKey k c.store ++ [(k, v, e)] := by
  unfold LRUCache.get at h
  split at h
  · exact absurd (congrArg Prod.fst h) (by simp)
  · next v0 exp hl =>
      split at h
      · exact absurd (congrArg Prod.fst h) (by simp)
      · have hv : v0 = v := by simpa using congrArg Prod.fst h
        have hc : c' = { c with store := setStore k v0 exp c.store, hits := c.hits + 1 } :=
          (congrArg Prod.snd h).symm
        exact ⟨exp, by rw [hc, hv]; simp [setStore]⟩

theorem evictLoop_ne_nil {m : Int} (hm : 1 ≤ m) :
    ∀ (l : List (K × V × Option Nat)) (ev : Nat) (l' : List (K × V × Option Nat)) (ev' : Nat),
      l ≠ [] → evictLoop m l ev = .ok (l', ev') → l' ≠ []
  | [], _, _, _ => fun hne _ => absurd rfl hne
  | x :: rest, ev, l', ev' => by
      intro _ hrun
      by_cases h : ((x :: rest).length : Int) > m
      · rw [evictLoop_cons_pos h ev] at hrun
        have hrest : rest ≠ [] := by
          intro hnil
          rw [hnil] at h
          simp at h
          omega
        exact evictLoop_ne_nil hm rest (ev + 1) l' ev' hrest hrun
      · rw [evictLoop_cons_neg h ev] at hrun
        simp only [Except.ok.injEq, Prod.mk.injEq] at hrun
        rw [← hrun.1]
        simp

theorem ends_with_of_append {α : Type} (pre l' A : List α) (e : α)
    (h : pre ++ l' = A ++ [e]) (hne : l' ≠ []) : ∃ B, l' = B ++ [e] := by
  rcases (List.eq_nil_or_concat l') with hnil | ⟨B, x, hBx⟩
  · exact absurd hnil hne
  · rw [List.concat_eq_append] at hBx
    refine ⟨B, ?_⟩
    have hx : x = e := by
      have h2 : (pre ++ B) ++ [x] = A ++ [e] := by
        rw [← h, hBx, List.append_assoc]
      have h3 := congrArg List.getLast? h2
      simpa [List.getLast?_concat] using h3
    rw [hBx, hx]

theorem set_puts_key_last [DecidableEq K] (c : LRUCache K V) (now : Nat) (k : K) (v : V)
    (c' : LRUCache K V) (hm : 1 ≤ c.max_size) (h : c.set now k v = .ok c') :
    ∃ rest, c'.store = rest ++ [(k, v, c.ttl.map fun t => now + t)] := by
  set exp := c.ttl.map fun t => now + t with hexp
  cases hrun : evictLoop c.max_size (setStore k v exp c.store) 0 with
  | error e =>
      rw [LRUCache.set] at h
      rw [← hexp] at h
      rw [hrun] at h
      exact absurd h (by simp [Bind.bind, Except.bind])
  | ok p =>
      obtain ⟨store3, ev⟩ := p
      have hc' : c' = { c with store := store3, evictions := c.evictions + ev } := by
        rw [LRUCache.set] at h
        rw [← hexp, hrun] at h
        simpa [Bind.bind, Except.bind] using h.symm
      obtain ⟨pre, hsplit, _⟩ := evictLoop_suffix _ 0 store3 ev hrun
      have hne : store3 ≠ [] :=
        evictLoop_ne_nil hm _ 0 store3 ev (by simp [setStore]) hrun
      obtain ⟨B, hB⟩ :=
        ends_with_of_append pre store3 (removeKey k c.store) (k, v, exp) (by
          rw [← hsplit]
          simp [setStore]) hne
      exact ⟨B, by rw [hc', hB]⟩

/-- C2: a successful `get` moves the key to the most-recently-used end
(the other entries keeping their relative order), a successful `set` (on
an existing key or otherwise) leaves the key at the most-recently-used
end whenever the capacity is at least 1, eviction removes only a segment
at the least-recently-used end (the survivors form the most-recent tail
of the old order), and concretely with `max_size = 2` the trace
`set a 1; set b 2; get a; set c 3` evicts `b` and keeps `a` and `c`. -/
theorem C2_recency_order :
    (∀ (K V : Type) [DecidableEq K] (c : LRUCache K V) (now : Nat) (k : K) (v : V)
        (c' : LRUCache K V), c.get now k = (some v, c') →
        ∃ e, c'.store = removeKey k c.store ++ [(k, v, e)]) ∧
    (∀ (K V : Type) [DecidableEq K] (c : LRUCache K V) (now : Nat) (k : K) (v : V)
        (c' : LRUCache K V), 1 ≤ c.max_size → c.set now k v = .ok c' →
        ∃ rest, c'.store = rest ++ [(k, v, c.ttl.map fun t => now + t)]) ∧
    (∀ (K V : Type) (m : Int) (l l' : List (K × V × Option Nat)) (ev : Nat),
        evictLoop m l 0 = .ok (l', ev) → ∃ pre, l = pre ++ l' ∧ ev = pre.length) ∧
    execOps (LRUCache.init 2 none : LRUCache Nat Nat)
        [.setOp 0 0 1, .setOp 0 1 2, .getOp 0 0, .setOp 0 2 3]
      = .ok { max_size := 2, ttl := none, store := [(0, 1, none), (2, 3, none)],
              hits := 1, misses := 0, evictions := 1 } := by
  refine ⟨?_, ?_, ?_, by decide⟩
  · intro K V _ c now k v c' h
    exact get_hit_moves_to_end c now k v c' h
  · intro K V _ c now k v c' hm h
    exact set_puts_key_last c now k v c' hm h
  · intro K V m l l' ev h
    obtain ⟨pre, h1, h2⟩ := evictLoop_suffix l 0 l' ev h
    exact ⟨pre, h1, by omega⟩

/-- Witness for C2 at concrete caches. -/
theorem C2_recency_order_witness :
    (∃ e, ((({ max_size := 2, ttl := none, store := [(0, 1, none), (1, 2, none)],
               hits := 0, misses := 0, evictions := 0 } : LRUCache Nat Nat).get 0 0).2).store
        = removeKey 0 [(0, 1, none), (1, 2, none)] ++ [(0, 1, e)]) ∧
    (∃ rest, ({ max_size := 2, ttl := none, store := [], hits := 0, misses := 0,
                evictions := 0 } : LRUCache Nat Nat).set 0 5 7 = .ok
        { max_size := 2, ttl := none, store := [(5, 7, none)], hits := 0, misses := 0,
          evictions := 0 } →
        [((5 : Nat), (7 : Nat), (none : Option Nat))] = rest ++ [(5, 7, none)]) ∧
    (∃ pre, [((0 : Nat), (1 : Nat), (none : Option Nat)), (1, 2, none)]
        = pre ++ [(1, 2, none)] ∧ 1 = pre.length) := by
  refine ⟨C2_recency_order.1 Nat Nat
      { max_size := 2, ttl := none, store := [(0, 1, none), (1, 2, none)], hits := 0,
        misses := 0, evictions := 0 } 0 0 1
      ((({ max_size := 2, ttl := none, store := [(0, 1, none), (1, 2, none)], hits := 0,
           misses := 0, evictions := 0 } : LRUCache Nat Nat).get 0 0).2) (by decide), ?_, ?_⟩
  · obtain ⟨rest, hrest⟩ :=
      C2_recency_order.2.1 Nat Nat
        { max_size := 2, ttl := none, store := [], hits := 0, misses := 0, evictions := 0 }
        0 5 7
        { max_size := 2, ttl := none, store := [(5, 7, none)], hits := 0, misses := 0,
          evictions := 0 }
        (by decide) (by decide)
    exact ⟨rest, fun _ => by simpa using hrest⟩
  · exact C2_recency_order.2.2.1 Nat Nat 1 [(0, 1, none), (1, 2, none)] [(1, 2, none)] 1
      (by decide)

/-- C3: when the stored entry for a key carries an expiration strictly in
the past, `get` removes the entry, increments `misses` and returns `none`,
leaving `hits` and `evictions` (and everything else) unchanged; moreover
`get` never touches the `evictions` counter at all, so a TTL expiry is
never counted as an eviction. -/
theorem C3_ttl_expiry_is_miss :
    (∀ (K V : Type) [DecidableEq K] (c : LRUCache K V) (now : Nat) (k : K) (v : V) (e : Nat),
        lookupStore k c.store = some (v, some e) → e < now →
        c.get now k = (none, { c with store := removeKey k c.store, misses := c.misses + 1 })) ∧
    (∀ (K V : Type) [DecidableEq K] (c : LRUCache K V) (now : Nat) (k : K),
        ((c.get now k).2).evictions = c.evictions) := by
  constructor
  · intro K V _ c now k v e hl he
    unfold LRUCache.get
    split
    · next heq => exact absurd (hl.symm.trans heq) (by simp)
    · next v0 exp heq =>
        rw [hl] at heq
        have hv0 : v = v0 ∧ some e = exp := by
          have := Option.some.inj heq
          exact ⟨congrArg Prod.fst this, congrArg Prod.snd this⟩
        obtain ⟨hv, hexp⟩ := hv0
        subst hv
        subst hexp
        have hx : is_expired now (some e) = true := by
          simp [is_expired]
          omega
        rw [if_pos hx]
  · intro K V _ c now k
    exact (get_frame c now k).2.2.1

/-- Witness for C3 at a concrete expired entry. -/
theorem C3_ttl_expiry_is_miss_witness :
    ({ max_size := 2, ttl := some 1, store := [(0, 100, some 1)], hits := 0, misses := 0,
        evictions := 0 } : LRUCache Nat Nat).get 2 0
      = (none, { max_size := 2, ttl := some 1, store := removeKey 0 [(0, 100, some 1)],
                 hits := 0, misses := 1, evictions := 0 }) :=
  C3_ttl_expiry_is_miss.1 Nat Nat
    { max_size := 2, ttl := some 1, store := [(0, 100, some 1)], hits := 0, misses := 0,
      evictions := 0 } 2 0 100 1 (by decide) (by decide)

/-- C8: `clear` empties the store and leaves the three counters and the
configuration untouched; concretely `set a 1; get a; clear` still reports
`hits = 1`, with `current_size = 0`. -/
theorem C8_clear_preserves_counters :
    (∀ (K V : Type) (c : LRUCache K V),
        c.clear.store = [] ∧ c.clear.hits = c.hits ∧ c.clear.misses = c.misses ∧
        c.clear.evictions = c.evictions ∧ c.clear.max_size = c.max_size ∧
        c.clear.ttl = c.ttl) ∧
    (∃ c', execOps (LRUCache.init 2 none : LRUCache Nat Nat)
        [.setOp 0 0 1, .getOp 0 0, .clearOp] = .ok c' ∧
        c'.stats = { hits := 1, misses := 0, evictions := 0, current_size := 0 }) := by
  refine ⟨fun K V c => ⟨rfl, rfl, rfl, rfl, rfl, rfl⟩, ?_⟩
  exact ⟨{ max_size := 2, ttl := none, store := [], hits := 1, misses := 0, evictions := 0 },
    by decide, by decide⟩

/-- C5 counterexample: construction with the non-positive capacity 0
returns an ordinary engine record — there is no validation and no
`ConfigurationError` anywhere in the code — and that engine is usable: a
subsequent `set` succeeds (the new entry being immediately evicted). -/
theorem C5_counterexample_no_validation :
    (LRUCache.init 0 none : LRUCache Nat Nat)
      = { max_size := 0, ttl := none, store := [], hits := 0, misses := 0, evictions := 0 } ∧
    (LRUCache.init 0 none : LRUCache Nat Nat).set 0 5 7
      = .ok { max_size := 0, ttl := none, store := [], hits := 0, misses := 0,
              evictions := 1 } :=
  ⟨rfl, by decide⟩

/-- C5 amended: neither construction nor `resize` validates the capacity
and no `ConfigurationError` exists.  `init` returns an engine with the
given fields for every `max_size` whatsoever; `resize` to any
non-negative capacity (including the non-positive capacity 0) succeeds;
`resize` to a negative capacity fails, but with the eviction loop's
`KeyError`, not a configuration failure. -/
theorem C5_no_configuration_error :
    (∀ (K V : Type) (m : Int) (t : Option Nat), (LRUCache.init m t : LRUCache K V)
      = { max_size := m, ttl := t, store := [], hits := 0, misses := 0, evictions := 0 }) ∧
    (∀ (K V : Type) [DecidableEq K] (c : LRUCache K V) (n : Int), 0 ≤ n →
      ∃ c', c.resize n = .ok c') ∧
    (∀ (K V : Type) [DecidableEq K] (c : LRUCache K V) (n : Int), n < 0 →
      c.resize n = .error .keyError) := by
  refine ⟨fun K V m t => rfl, ?_, ?_⟩
  · intro K V _ c n hn
    obtain ⟨c', h, _⟩ := resize_ok_of_nonneg c n hn
    exact ⟨c', h⟩
  · intro K V _ c n hn
    exact resize_error_of_neg c n hn

/-- Witness for C5's amended statement at concrete capacities. -/
theorem C5_no_configuration_error_witness :
    (∃ c', (LRUCache.init 3 none : LRUCache Nat Nat).resize 0 = .ok c') ∧
    (LRUCache.init 3 none : LRUCache Nat Nat).resize (-1) = .error .keyError :=
  ⟨C5_no_configuration_error.2.1 Nat Nat (LRUCache.init 3 none) 0 (by decide),
   C5_no_configuration_error.2.2 Nat Nat (LRUCache.init 3 none) (-1) (by decide)⟩

/-- C10 counterexample: on an engine whose `max_size` is negative, a
`resize` call targeting a non-negative capacity does not raise — refuting
the claim that any set or resize call on such an engine raises. -/
theorem C10_counterexample_resize_recovers :
    (LRUCache.init (-5) none : LRUCache Nat Nat).max_size < 0 ∧
    (LRUCache.init (-5) none : LRUCache Nat Nat).resize 3
      = .ok { max_size := 3, ttl := none, store := [], hits := 0, misses := 0,
              evictions := 0 } := by
  exact ⟨by decide, by decide⟩

/-- C10 amended: with a negative `max_size`, every `set` call raises
`KeyError` — the eviction loop pops entries until the store is empty and
then calls `popitem` on the empty map, since the length can never go below
zero — and every `resize` call to a negative capacity raises likewise;
when the capacity in force is non-negative this error branch is
unreachable: `set` and `resize` always return successfully. -/
theorem C10_negative_capacity_raises :
    (∀ (K V : Type) [DecidableEq K] (c : LRUCache K V) (now : Nat) (k : K) (v : V),
      c.max_size < 0 → c.set now k v = .error .keyError) ∧
    (∀ (K V : Type) [DecidableEq K] (c : LRUCache K V) (n : Int), n < 0 →
      c.resize n = .error .keyError) ∧
    (∀ (K V : Type) [DecidableEq K] (c : LRUCache K V) (now : Nat) (k : K) (v : V),
      0 ≤ c.max_size → ∃ c', c.set now k v = .ok c') ∧
    (∀ (K V : Type) [DecidableEq K] (c : LRUCache K V) (n : Int), 0 ≤ n →
      ∃ c', c.resize n = .ok c') := by
  refine ⟨?_, ?_, ?_, ?_⟩
  · intro K V _ c now k v hm
    exact set_error_of_neg c now k v hm
  · intro K V _ c n hn
    exact resize_error_of_neg c n hn
  · intro K V _ c now k v hm
    obtain ⟨c', h, _⟩ := set_ok_of_nonneg c now k v hm
    exact ⟨c', h⟩
  · intro K V _ c n hn
    obtain ⟨c', h, _⟩ := resize_ok_of_nonneg c n hn
    exact ⟨c', h⟩

/-- Witness for C10's amended statement at concrete engines. -/
theorem C10_negative_capacity_raises_witness :
    (LRUCache.init (-1) none : LRUCache Nat Nat).set 0 5 7 = .error .keyError ∧
    (LRUCache.init 4 none : LRUCache Nat Nat).resize (-2) = .error .keyError ∧
    (∃ c', (LRUCache.init 4 none : LRUCache Nat Nat).set 0 5 7 = .ok c') :=
  ⟨C10_negative_capacity_raises.1 Nat Nat (LRUCache.init (-1) none) 0 5 7 (by decide),
   C10_negative_capacity_raises.2.1 Nat Nat (LRUCache.init 4 none) (-2) (by decide),
   C10_negative_capacity_raises.2.2.1 Nat Nat (LRUCache.init 4 none) 0 5 7 (by decide)⟩

/-! ### Helper lemmas for get and the wrapper -/

theorem get_of_lookup_none [DecidableEq K] (c : LRUCache K V) (now : Nat) (k : K)
    (hl : lookupStore k c.store = none) :
    c.get now k = (none, { c with misses := c.misses + 1 }) := by
  unfold LRUCache.get
  split
  · rfl
  · next v0 exp heq => exact absurd (hl.symm.trans heq) (by simp)

theorem get_of_lookup_live [DecidableEq K] (c : LRUCache K V) (now : Nat) (k : K)
    (v : V) (e : Option Nat) (hl : lookupStore k c.store = some (v, e))
    (he : is_expired now e = false) :
    c.get now k = (some v, { c with store := setStore k v e c.store, hits := c.hits + 1 }) := by
  unfold LRUCache.get
  split
  · next heq => exact absurd (hl.symm.trans heq) (by simp)
  · next v0 exp heq =>
      rw [hl] at heq
      have hv : v = v0 := congrArg Prod.fst (Option.some.inj heq)
      have hexp : e = exp := congrArg Prod.snd (Option.some.inj heq)
      subst hv
      subst hexp
      rw [if_neg (by rw [he]; exact Bool.false_ne_true)]

theorem get_of_lookup_expired [DecidableEq K] (c : LRUCache K V) (now : Nat) (k : K)
    (v : V) (e : Option Nat) (hl : lookupStore k c.store = some (v, e))
    (he : is_expired now e = true) :
    c.get now k = (none, { c with store := removeKey k c.store, misses := c.misses + 1 }) := by
  unfold LRUCache.get
  split
  · next heq => exact absurd (hl.symm.trans heq) (by simp)
  · next v0 exp heq =>
      rw [hl] at heq
      have hv : v = v0 := congrArg Prod.fst (Option.some.inj heq)
      have hexp : e = exp := congrArg Prod.snd (Option.some.inj heq)
      subst hv
      subst hexp
      rw [if_pos he]

theorem wrapper_of_deriveKey_error (f : List PyObj → List (String × PyObj) → Option β)
    (c : LRUCache (HashV × HashV) (Option β)) (now : Nat)
    (pargs : List PyObj) (kwargs : List (String × PyObj)) (e : MHError)
    (h : deriveKey pargs kwargs = .error e) :
    wrapper f c now pargs kwargs = (.error .typeError, 0) := by
  unfold wrapper
  rw [h]

theorem wrapper_of_join_some (f : List PyObj → List (String × PyObj) → Option β)
    (c : LRUCache (HashV × HashV) (Option β)) (now : Nat)
    (pargs : List PyObj) (kwargs : List (String × PyObj)) (key : HashV × HashV) (x : β)
    (h : deriveKey pargs kwargs = .ok key)
    (hres : ((c.get now key).1).join = some x) :
    wrapper f c now pargs kwargs = (.ok (some x, (c.get now key).2), 0) := by
  unfold wrapper
  split
  · next e heq => exact absurd (heq.symm.trans h) (by simp)
  · next key2 heq =>
      have hk : key2 = key := Except.ok.inj (heq.symm.trans h)
      rw [hk]
      rcases hg : c.get now key with ⟨r, c1⟩
      rw [hg] at hres
      have hres2 : (r.bind fun a => a) = some x := hres
      simp [hres2]

theorem wrapper_of_join_none (f : List PyObj → List (String × PyObj) → Option β)
    (c : LRUCache (HashV × HashV) (Option β)) (now : Nat)
    (pargs : List PyObj) (kwargs : List (String × PyObj)) (key : HashV × HashV)
    (c2 : LRUCache (HashV × HashV) (Option β))
    (h : deriveKey pargs kwargs = .ok key)
    (hres : ((c.get now key).1).join = none)
    (hset : (c.get now key).2.set now key (f pargs kwargs) = .ok c2) :
    wrapper f c now pargs kwargs = (.ok (f pargs kwargs, c2), 1) := by
  unfold wrapper
  split
  · next e heq => exact absurd (heq.symm.trans h) (by simp)
  · next key2 heq =>
      have hk : key2 = key := Except.ok.inj (heq.symm.trans h)
      rw [hk]
      rcases hg : c.get now key with ⟨r, c1⟩
      rw [hg] at hres hset
      have hres2 : (r.bind fun a => a) = none := hres
      simp only at hset
      simp [hres2, hset]

theorem mhList_error_of_mem :
    ∀ (l : List PyObj) (x : PyObj), x ∈ l → make_hashable x = .error .typeError →
      mhList l = .error .typeError
  | [], x => by simp
  | y :: rest, x => by
      intro hmem hx
      rcases List.mem_cons.mp hmem with hxy | hxr
      · subst hxy
        simp [mhList, hx, Bind.bind, Except.bind]
      · cases hy : make_hashable y with
        | error e =>
            cases e
            simp [mhList, hy, Bind.bind, Except.bind]
        | ok hv =>
            simp [mhList, hy, Bind.bind, Except.bind,
              mhList_error_of_mem rest x hxr hx]

theorem deriveKey_error_of_unhash_parg (pargs : List PyObj) (kwargs : List (String × PyObj))
    (i : Nat) (hmem : PyObj.unhashObj i ∈ pargs) :
    deriveKey pargs kwargs = .error .typeError := by
  have h1 : mhList pargs = .error .typeError :=
    mhList_error_of_mem pargs _ hmem rfl
  simp [deriveKey, make_hashable, h1, Bind.bind, Except.bind]

theorem get_join_none_of_stored_none [DecidableEq K] (c : LRUCache K (Option β))
    (now : Nat) (k : K)
    (hstore : ∀ p : Option β × Option Nat, lookupStore k c.store = some p → p.1 = none) :
    ((c.get now k).1).join = none := by
  cases hl : lookupStore k c.store with
  | none => rw [get_of_lookup_none c now k hl]; rfl
  | some p =>
      obtain ⟨v, e⟩ := p
      have hv : v = none := hstore (v, e) hl
      subst hv
      by_cases he : is_expired now e = true
      · rw [get_of_lookup_expired c now k none e hl he]; rfl
      · rw [get_of_lookup_live c now k none e hl (by simpa using he)]; rfl

/-! ### Concrete fixtures for the wrapper claims -/

/-- The key the wrapper derives for a call with no arguments at all. -/
def emptyKey : HashV × HashV := (.tupleH [], .tupleH [])

/-- An engine holding a live cached `None` under `emptyKey`. -/
def storedNoneCache : LRUCache (HashV × HashV) (Option Int) :=
  { max_size := 2, ttl := none, store := [(emptyKey, none, none)],
    hits := 0, misses := 0, evictions := 0 }

/-- An engine holding a live cached `7` under `emptyKey`. -/
def storedSevenCache : LRUCache (HashV × HashV) (Option Int) :=
  { max_size := 2, ttl := none, store := [(emptyKey, some 7, none)],
    hits := 0, misses := 0, evictions := 0 }

/-- C4 amended: when the derived key is present and live in the engine
with a cached value that is not `None`, the wrapped callable returns the
cached value without invoking the underlying function (invocation count
0); when the lookup yields no live non-`None` value — key absent, entry
expired, or a cached `None`, which the `cached is not None` test
conflates with a miss — the underlying function is invoked exactly once,
its result stored via the engine's `set`, and returned. -/
theorem C4_wrapper_call_semantics :
    (∀ (β : Type) (f : List PyObj → List (String × PyObj) → Option β)
        (c : LRUCache (HashV × HashV) (Option β)) (now : Nat)
        (pargs : List PyObj) (kwargs : List (String × PyObj))
        (key : HashV × HashV) (x : β) (e : Option Nat),
        deriveKey pargs kwargs = .ok key →
        lookupStore key c.store = some (some x, e) →
        is_expired now e = false →
        wrapper f c now pargs kwargs = (.ok (some x, (c.get now key).2), 0)) ∧
    (∀ (β : Type) (f : List PyObj → List (String × PyObj) → Option β)
        (c : LRUCache (HashV × HashV) (Option β)) (now : Nat)
        (pargs : List PyObj) (kwargs : List (String × PyObj))
        (key : HashV × HashV) (c2 : LRUCache (HashV × HashV) (Option β)),
        deriveKey pargs kwargs = .ok key →
        ((c.get now key).1).join = none →
        (c.get now key).2.set now key (f pargs kwargs) = .ok c2 →
        wrapper f c now pargs kwargs = (.ok (f pargs kwargs, c2), 1)) := by
  constructor
  · intro β f c now pargs kwargs key x e hk hl he
    refine wrapper_of_join_some f c now pargs kwargs key x hk ?_
    rw [get_of_lookup_live c now key (some x) e hl he]
    rfl
  · intro β f c now pargs kwargs key c2 hk hj hset
    exact wrapper_of_join_none f c now pargs kwargs key c2 hk hj hset

/-- Witness for C4's amended statement: a hit on a stored non-`None`
value is served without invocation; a miss on an empty engine invokes,
stores and returns. -/
theorem C4_wrapper_call_semantics_witness :
    (wrapper (fun _ _ => (some 9 : Option Int)) storedSevenCache 0 [] []
      = (.ok (some 7, (storedSevenCache.get 0 emptyKey).2), 0)) ∧
    (wrapper (fun _ _ => (some 5 : Option Int)) (LRUCache.init 10 none) 0 [] []
      = (.ok (some 5,
          { max_size := 10, ttl := none, store := [(emptyKey, some 5, none)],
            hits := 0, misses := 1, evictions := 0 }), 1)) :=
  ⟨C4_wrapper_call_semantics.1 Int (fun _ _ => some 9) storedSevenCache 0 [] []
      emptyKey 7 none (by decide) (by decide) (by decide),
   C4_wrapper_call_semantics.2 Int (fun _ _ => some 5) (LRUCache.init 10 none) 0 [] []
      emptyKey
      { max_size := 10, ttl := none, store := [(emptyKey, some 5, none)],
        hits := 0, misses := 1, evictions := 0 }
      (by decide) (by decide) (by decide)⟩

/-- C4 counterexample: the derived key is present and live in
`storedNoneCache`, yet the wrapper invokes the wrapped function
(invocation count 1), because the cached value is `None` and
`cached is not None` conflates it with a miss — refuting the claim that
every present-and-live key is served without invoking the function. -/
theorem C4_counterexample_cached_none :
    lookupStore emptyKey storedNoneCache.store = some (none, none) ∧
    is_expired 0 none = false ∧
    (wrapper (fun _ _ => (none : Option Int)) storedNoneCache 0 [] []).2 = 1 := by
  exact ⟨by decide, by decide, by decide⟩

/-- C6: an unhashable non-container value makes `make_hashable` raise
`TypeError`; whenever key derivation fails, the wrapper surfaces the
failure to the caller with the wrapped function never invoked (invocation
count 0); in particular every call whose positional arguments contain an
unhashable object fails this way. -/
theorem C6_unhashable_raises_before_call :
    (∀ i, make_hashable (.unhashObj i) = .error .typeError) ∧
    (∀ (β : Type) (f : List PyObj → List (String × PyObj) → Option β)
        (c : LRUCache (HashV × HashV) (Option β)) (now : Nat)
        (pargs : List PyObj) (kwargs : List (String × PyObj)) (e : MHError),
        deriveKey pargs kwargs = .error e →
        wrapper f c now pargs kwargs = (.error .typeError, 0)) ∧
    (∀ (β : Type) (f : List PyObj → List (String × PyObj) → Option β)
        (c : LRUCache (HashV × HashV) (Option β)) (now : Nat)
        (pargs : List PyObj) (kwargs : List (String × PyObj)) (i : Nat),
        PyObj.unhashObj i ∈ pargs →
        wrapper f c now pargs kwargs = (.error .typeError, 0)) := by
  refine ⟨fun i => rfl, ?_, ?_⟩
  · intro β f c now pargs kwargs e h
    exact wrapper_of_deriveKey_error f c now pargs kwargs e h
  · intro β f c now pargs kwargs i hmem
    exact wrapper_of_deriveKey_error f c now pargs kwargs .typeError
      (deriveKey_error_of_unhash_parg pargs kwargs i hmem)

/-- Witness for C6 at a concrete unhashable positional argument. -/
theorem C6_unhashable_raises_before_call_witness :
    wrapper (fun _ _ => (some 1 : Option Int)) (LRUCache.init 10 none) 0
        [.unhashObj 0] [] = (.error .typeError, 0) :=
  C6_unhashable_raises_before_call.2.2 Int (fun _ _ => some 1) (LRUCache.init 10 none)
    0 [.unhashObj 0] [] 0 (List.mem_singleton.mpr rfl)

/-- C9: when the wrapped function returns `None` for the given arguments
and every value the engine currently stores at the derived key is `None`
(as is the case under wrapper-only usage), a wrapper call always invokes
the wrapped function (invocation count 1) — even when the key is present
and live — and stores the result via `set` again: the wrapper's
`cached is not None` hit test treats a cached `None` identically to a
cache miss. -/
theorem C9_cached_none_never_hits :
    ∀ (β : Type) (f : List PyObj → List (String × PyObj) → Option β)
      (c : LRUCache (HashV × HashV) (Option β)) (now : Nat)
      (pargs : List PyObj) (kwargs : List (String × PyObj)) (key : HashV × HashV),
      deriveKey pargs kwargs = .ok key →
      f pargs kwargs = none →
      (∀ p : Option β × Option Nat, lookupStore key c.store = some p → p.1 = none) →
      0 ≤ c.max_size →
      ∃ c2, (c.get now key).2.set now key none = .ok c2 ∧
        wrapper f c now pargs kwargs = (.ok (none, c2), 1) := by
  intro β f c now pargs kwargs key hk hf hstore hm
  have hj := get_join_none_of_stored_none c now key hstore
  have hm2 : 0 ≤ ((c.get now key).2).max_size := by
    rw [(get_frame c now key).1]
    exact hm
  obtain ⟨c2, hset, _, _, _⟩ := set_ok_of_nonneg ((c.get now key).2) now key none hm2
  refine ⟨c2, hset, ?_⟩
  have hw := wrapper_of_join_none f c now pargs kwargs key c2 hk hj (by rw [hf]; exact hset)
  rw [hf] at hw
  exact hw

/-- Witness for C9 with a stored `None` that is present and live. -/
theorem C9_cached_none_never_hits_witness :
    ∃ c2, ((storedNoneCache.get 0 emptyKey).2).set 0 emptyKey none = .ok c2 ∧
      wrapper (fun _ _ => (none : Option Int)) storedNoneCache 0 [] []
        = (.ok (none, c2), 1) :=
  C9_cached_none_never_hits Int (fun _ _ => none) storedNoneCache 0 [] [] emptyKey
    (by decide) rfl
    (fun p hp => by
      have h2 : ((none : Option Int), (none : Option Nat)) = p :=
        Option.some.inj ((by decide :
          lookupStore emptyKey storedNoneCache.store = some (none, none)).symm.trans hp)
      rw [← h2])
    (by decide)

/-! ### The modelled Python string order is a strict linear order -/

theorem pyCharLt_asymm (a b : Char) (h : pyCharLt a b = true) : pyCharLt b a = false := by
  simp [pyCharLt, Char.toNat] at h ⊢
  omega

theorem pyCharLt_trans (a b c : Char) (h1 : pyCharLt a b = true) (h2 : pyCharLt b c = true) :
    pyCharLt a c = true := by
  simp [pyCharLt, Char.toNat] at h1 h2 ⊢
  omega

theorem pyCharLt_conn (a b : Char) (h1 : pyCharLt a b = false) (h2 : pyCharLt b a = false) :
    a = b := by
  simp [pyCharLt, Char.toNat] at h1 h2
  exact Char.ext (UInt32.ext (by omega))

theorem pyCharsLt_irrefl : ∀ l : List Char, pyCharsLt l l = false
  | [] => rfl
  | a :: as => by simp [pyCharsLt, pyCharsLt_irrefl as]

theorem pyCharsLt_trans :
    ∀ (a b c : List Char), pyCharsLt a b = true → pyCharsLt b c = true →
      pyCharsLt a c = true
  | [], [], _ => by simp [pyCharsLt]
  | [], _ :: _, [] => by simp [pyCharsLt]
  | [], _ :: _, _ :: _ => by simp [pyCharsLt]
  | _ :: _, [], _ => by simp [pyCharsLt]
  | _ :: _, _ :: _, [] => by simp [pyCharsLt]
  | x :: xs, y :: ys, z :: zs => by
      intro h1 h2
      by_cases hxy : x = y
      · subst hxy
        rw [pyCharsLt, if_pos rfl] at h1
        by_cases hyz : x = z
        · subst hyz
          rw [pyCharsLt, if_pos rfl] at h2
          rw [pyCharsLt, if_pos rfl]
          exact pyCharsLt_trans xs ys zs h1 h2
        · rw [pyCharsLt, if_neg hyz] at h2
          rw [pyCharsLt, if_neg hyz]
          exact h2
      · rw [pyCharsLt, if_neg hxy] at h1
        by_cases hyz : y = z
        · subst hyz
          rw [pyCharsLt, if_neg hxy]
          exact h1
        · rw [pyCharsLt, if_neg hyz] at h2
          have hlt : pyCharLt x z = true := pyCharLt_trans x y z h1 h2
          have hxz : x ≠ z := by
            intro hc
            subst hc
            have := pyCharLt_asymm x y h1
            rw [this] at h2
            exact Bool.false_ne_true h2
          rw [pyCharsLt, if_neg hxz]
          exact hlt

theorem pyCharsLt_conn :
    ∀ (a b : List Char), pyCharsLt a b = false → pyCharsLt b a = false → a = b
  | [], [] => fun _ _ => rfl
  | [], _ :: _ => by simp [pyCharsLt]
  | _ :: _, [] => by simp [pyCharsLt]
  | x :: xs, y :: ys => by
      intro h1 h2
      by_cases hxy : x = y
      · subst hxy
        rw [pyCharsLt, if_pos rfl] at h1 h2
        rw [pyCharsLt_conn xs ys h1 h2]
      · rw [pyCharsLt, if_neg hxy] at h1
        rw [pyCharsLt, if_neg (Ne.symm hxy)] at h2
        exact absurd (pyCharLt_conn x y h1 h2) hxy

theorem pyStrLt_asymm (a b : String) (h : pyStrLt a b = true) : pyStrLt b a = false := by
  cases hba : pyStrLt b a with
  | false => rfl
  | true =>
      have := pyCharsLt_trans a.data b.data a.data h hba
      rw [pyCharsLt_irrefl a.data] at this
      exact absurd this Bool.false_ne_true

theorem pyStrLt_trans (a b c : String) (h1 : pyStrLt a b = true) (h2 : pyStrLt b c = true) :
    pyStrLt a c = true :=
  pyCharsLt_trans a.data b.data c.data h1 h2

theorem pyStrLt_conn (a b : String) (h1 : pyStrLt a b = false) (h2 : pyStrLt b a = false) :
    a = b := by
  cases a with
  | mk da =>
      cases b with
      | mk db =>
          have : da = db := pyCharsLt_conn da db h1 h2
          rw [this]

/-! ### Pure counterpart of the kwargs-dict sort -/

/-- The keyword name of a canonicalized `(key, value)` pair — the sort key
relevant to kwargs dicts; other shapes map to `""` (never hit below). -/
def keyOf : HashV → String
  | .tupleH (.strH s :: _) => s
  | _ => ""

/-- The canonicalized pairs a kwargs dict produces: a two-tuple whose
first component is a string scalar. -/
def IsStrPair (h : HashV) : Prop := ∃ s v, h = .tupleH [.strH s, v]

/-- Pure insertion step matching `insertE` on string-keyed pairs. -/
def insertP (x : HashV) : List HashV → List HashV
  | [] => [x]
  | y :: ys => if pyStrLt (keyOf x) (keyOf y) = true then x :: y :: ys else y :: insertP x ys

/-- Pure insertion sort matching `sortE` on string-keyed pairs. -/
def sortP : List HashV → List HashV
  | [] => []
  | x :: xs => insertP x (sortP xs)

theorem keyOf_strPair (s : String) (v : HashV) : keyOf (.tupleH [.strH s, v]) = s := rfl

theorem hashLt_strPair (s t : String) (v w : HashV) (hst : s ≠ t) :
    hashLt (.tupleH [.strH s, v]) (.tupleH [.strH t, w]) = .ok (pyStrLt s t) := by
  have hne : (HashV.strH s) ≠ (HashV.strH t) := by simp [hst]
  simp only [hashLt, tupleLt]
  rw [if_neg hne]

theorem insertE_eq_insertP :
    ∀ (l : List HashV) (x : HashV), IsStrPair x → (∀ y ∈ l, IsStrPair y) →
      (∀ y ∈ l, keyOf x ≠ keyOf y) →
      insertE x l = .ok (insertP x l)
  | [], x => by
      intro _ _ _
      simp [insertE, insertP]
  | y :: ys, x => by
      intro hx hl hk
      obtain ⟨s, v, hxe⟩ := hx
      obtain ⟨t, w, hye⟩ := hl y (by simp)
      have hst : s ≠ t := by
        have h := hk y (by simp)
        rw [hxe, hye] at h
        simpa [keyOf] using h
      have hlt : hashLt x y = .ok (pyStrLt s t) := by
        rw [hxe, hye]
        exact hashLt_strPair s t v w hst
      have hkx : keyOf x = s := by rw [hxe]; exact keyOf_strPair s v
      have hky : keyOf y = t := by rw [hye]; exact keyOf_strPair t w
      by_cases hb : pyStrLt s t = true
      · simp [insertE, insertP, hlt, hb, hkx, hky, Bind.bind, Except.bind]
      · have hrec := insertE_eq_insertP ys x ⟨s, v, hxe⟩
          (fun z hz => hl z (by simp [hz])) (fun z hz => hk z (by simp [hz]))
        simp only [Bool.not_eq_true] at hb
        simp [insertE, insertP, hlt, hb, hkx, hky, hrec, Bind.bind, Except.bind]

theorem insertP_perm (x : HashV) : ∀ l : List HashV, (insertP x l).Perm (x :: l)
  | [] => List.Perm.refl _
  | y :: ys => by
      by_cases hb : pyStrLt (keyOf x) (keyOf y) = true
      · rw [insertP, if_pos hb]
      · rw [insertP, if_neg hb]
        exact ((insertP_perm x ys).cons y).trans (List.Perm.swap x y ys)

theorem sortP_perm : ∀ l : List HashV, (sortP l).Perm l
  | [] => List.Perm.refl _
  | x :: xs => (insertP_perm x (sortP xs)).trans ((sortP_perm xs).cons x)

theorem sortE_eq_sortP :
    ∀ l : List HashV, (∀ y ∈ l, IsStrPair y) → (l.map keyOf).Nodup →
      sortE l = .ok (sortP l)
  | [] => by
      intro _ _
      simp [sortE, sortP]
  | x :: xs => by
      intro hl hnd
      have hxs : ∀ y ∈ xs, IsStrPair y := fun y hy => hl y (by simp [hy])
      have hndxs : (xs.map keyOf).Nodup := (List.nodup_cons.mp (by simpa using hnd)).2
      have hkx : keyOf x ∉ xs.map keyOf := (List.nodup_cons.mp (by simpa using hnd)).1
      have ih := sortE_eq_sortP xs hxs hndxs
      have hmem : ∀ y ∈ sortP xs, y ∈ xs := fun y hy => (sortP_perm xs).mem_iff.mp hy
      have hins := insertE_eq_insertP (sortP xs) x (hl x (by simp))
        (fun y hy => hxs y (hmem y hy))
        (fun y hy hcon => hkx (by
          rw [hcon]
          exact List.mem_map_of_mem keyOf (hmem y hy)))
      simp [sortE, ih, hins, sortP, Bind.bind, Except.bind]

/-! ### Sortedness and uniqueness of the sorted permutation -/

/-- Non-strict key order used to state sortedness of the output. -/
def keyLe (a b : HashV) : Prop := pyStrLt (keyOf b) (keyOf a) = false

theorem keyLe_of_lt {a b : HashV} (h : pyStrLt (keyOf a) (keyOf b) = true) : keyLe a b :=
  pyStrLt_asymm _ _ h

theorem keyLe_of_not_lt {a b : HashV} (h : pyStrLt (keyOf b) (keyOf a) = false) : keyLe a b := h

theorem insertP_sorted (x : HashV) :
    ∀ l : List HashV, l.Pairwise keyLe → (insertP x l).Pairwise keyLe
  | [] => fun _ => List.pairwise_singleton _ _
  | y :: ys => by
      intro hp
      rw [List.pairwise_cons] at hp
      obtain ⟨hy, hys⟩ := hp
      by_cases hb : pyStrLt (keyOf x) (keyOf y) = true
      · rw [insertP, if_pos hb]
        rw [List.pairwise_cons]
        refine ⟨?_, List.pairwise_cons.mpr ⟨hy, hys⟩⟩
        intro z hz
        rcases List.mem_cons.mp hz with hzy | hzys
        · subst hzy
          exact keyLe_of_lt hb
        · cases hzx : pyStrLt (keyOf z) (keyOf x) with
          | false => exact hzx
          | true =>
              have h2 := hy z hzys
              have := pyStrLt_trans _ _ _ hzx hb
              rw [keyLe] at h2
              rw [h2] at this
              exact absurd this Bool.false_ne_true
      · rw [insertP, if_neg hb]
        rw [List.pairwise_cons]
        simp only [Bool.not_eq_true] at hb
        refine ⟨?_, insertP_sorted x ys hys⟩
        intro z hz
        rcases List.mem_cons.mp ((insertP_perm x ys).mem_iff.mp hz) with hzx | hzys
        · subst hzx
          exact keyLe_of_not_lt hb
        · exact hy z hzys

theorem sortP_sorted : ∀ l : List HashV, (sortP l).Pairwise keyLe
  | [] => List.Pairwise.nil
  | x :: xs => insertP_sorted x (sortP xs) (sortP_sorted xs)

theorem pyStrLt_true_of_le_ne {a b : HashV} (h1 : keyLe a b) (h2 : keyOf a ≠ keyOf b) :
    pyStrLt (keyOf a) (keyOf b) = true := by
  cases hab : pyStrLt (keyOf a) (keyOf b) with
  | true => rfl
  | false => exact absurd (pyStrLt_conn _ _ hab h1) h2

/-- Strict key order together with equality: the antisymmetric relation
along which the sorted permutation is unique. -/
def keyLtOrEq (a b : HashV) : Prop := pyStrLt (keyOf a) (keyOf b) = true ∨ a = b

instance : IsAntisymm HashV keyLtOrEq := by
  refine ⟨?_⟩
  intro a b hab hba
  rcases hab with hab | hab
  · rcases hba with hba | hba
    · have h2 := pyStrLt_asymm _ _ hab
      rw [h2] at hba
      exact absurd hba Bool.false_ne_true
    · exact hba.symm
  · exact hab

theorem sorted_perm_unique :
    ∀ (l1 l2 : List HashV), l1.Perm l2 → l1.Pairwise keyLe → l2.Pairwise keyLe →
      (l1.map keyOf).Nodup → l1 = l2 := by
  intro l1 l2 hperm hs1 hs2 hnd1
  have hnd2 : (l2.map keyOf).Nodup := ((hperm.map keyOf).nodup_iff).mp hnd1
  have hne1 : l1.Pairwise fun a b => keyOf a ≠ keyOf b := by
    rw [List.Nodup, List.pairwise_map] at hnd1
    exact hnd1
  have hne2 : l2.Pairwise fun a b => keyOf a ≠ keyOf b := by
    rw [List.Nodup, List.pairwise_map] at hnd2
    exact hnd2
  have hstrict1 : l1.Pairwise fun a b => pyStrLt (keyOf a) (keyOf b) = true :=
    (hs1.and hne1).imp fun h => pyStrLt_true_of_le_ne h.1 h.2
  have hstrict2 : l2.Pairwise fun a b => pyStrLt (keyOf a) (keyOf b) = true :=
    (hs2.and hne2).imp fun h => pyStrLt_true_of_le_ne h.1 h.2
  exact List.eq_of_perm_of_sorted (r := keyLtOrEq) hperm
    (hstrict1.imp fun h => Or.inl h) (hstrict2.imp fun h => Or.inl h)

/-! ### Evaluating the canonicalization of kwargs dicts -/

/-- Total function extracting the canonicalization of a value known to
canonicalize successfully (arbitrary default otherwise). -/
def mhOr (o : PyObj) : HashV :=
  match make_hashable o with
  | .ok h => h
  | .error _ => .intH 0

/-- The canonicalized pair a kwargs binding produces. -/
def gKw (q : String × PyObj) : HashV := .tupleH [.strH q.1, mhOr q.2]

theorem mhPairs_ok_of_all_ok :
    ∀ l : List (String × PyObj),
      (∀ q ∈ l, ∃ hv, make_hashable q.2 = .ok hv) →
      mhPairs (l.map fun q => (.strV q.1, q.2)) = .ok (l.map gKw)
  | [] => by
      intro _
      simp [mhPairs]
  | q :: rest => by
      intro hall
      obtain ⟨hv, hq⟩ := hall q (by simp)
      have hOr : mhOr q.2 = hv := by simp [mhOr, hq]
      have ih := mhPairs_ok_of_all_ok rest fun z hz => hall z (by simp [hz])
      simp [mhPairs, make_hashable, hq, ih, gKw, hOr, Bind.bind, Except.bind]

theorem mhPairs_error_of_mem :
    ∀ l : List (String × PyObj), (∃ q ∈ l, make_hashable q.2 = .error .typeError) →
      mhPairs (l.map fun q => (.strV q.1, q.2)) = .error .typeError
  | [] => by simp
  | q :: rest => by
      intro hex
      obtain ⟨z, hz, hzerr⟩ := hex
      rcases List.mem_cons.mp hz with hzq | hzrest
      · subst hzq
        simp [mhPairs, make_hashable, hzerr, Bind.bind, Except.bind]
      · cases hq : make_hashable q.2 with
        | error e =>
            cases e
            simp [mhPairs, make_hashable, hq, Bind.bind, Except.bind]
        | ok hv =>
            have ih := mhPairs_error_of_mem rest ⟨z, hzrest, hzerr⟩
            simp [mhPairs, make_hashable, hq, ih, Bind.bind, Except.bind]

theorem mh_kwargs_ok (l : List (String × PyObj))
    (hall : ∀ q ∈ l, ∃ hv, make_hashable q.2 = .ok hv)
    (hnd : (l.map Prod.fst).Nodup) :
    make_hashable (kwargsToDict l) = .ok (.tupleH (sortP (l.map gKw))) := by
  have hp := mhPairs_ok_of_all_ok l hall
  have hstr : ∀ y ∈ l.map gKw, IsStrPair y := by
    intro y hy
    obtain ⟨q, hq, rfl⟩ := List.mem_map.mp hy
    exact ⟨q.1, mhOr q.2, rfl⟩
  have hkeys : (l.map gKw).map keyOf = l.map Prod.fst := by
    rw [List.map_map]
    rfl
  have hs := sortE_eq_sortP (l.map gKw) hstr (by rw [hkeys]; exact hnd)
  simp [make_hashable, kwargsToDict, hp, hs, Bind.bind, Except.bind]

theorem mh_kwargs_error (l : List (String × PyObj))
    (hex : ∃ q ∈ l, make_hashable q.2 = .error .typeError) :
    make_hashable (kwargsToDict l) = .error .typeError := by
  have hp := mhPairs_error_of_mem l hex
  simp [make_hashable, kwargsToDict, hp, Bind.bind, Except.bind]

theorem kwargs_canonical_eq (l1 l2 : List (String × PyObj)) (hperm : l1.Perm l2)
    (hnd1 : (l1.map Prod.fst).Nodup) :
    make_hashable (kwargsToDict l1) = make_hashable (kwargsToDict l2) := by
  by_cases hall : ∀ q ∈ l1, ∃ hv, make_hashable q.2 = .ok hv
  · have hall2 : ∀ q ∈ l2, ∃ hv, make_hashable q.2 = .ok hv :=
      fun q hq => hall q (hperm.mem_iff.mpr hq)
    have hnd2 : (l2.map Prod.fst).Nodup := ((hperm.map Prod.fst).nodup_iff).mp hnd1
    rw [mh_kwargs_ok l1 hall hnd1, mh_kwargs_ok l2 hall2 hnd2]
    have hpg : (l1.map gKw).Perm (l2.map gKw) := hperm.map gKw
    have hkeys1 : (l1.map gKw).map keyOf = l1.map Prod.fst := by
      rw [List.map_map]
      rfl
    have hndk : ((sortP (l1.map gKw)).map keyOf).Nodup := by
      refine (((sortP_perm (l1.map gKw)).map keyOf).nodup_iff).mpr ?_
      rw [hkeys1]
      exact hnd1
    have hsort_eq : sortP (l1.map gKw) = sortP (l2.map gKw) :=
      sorted_perm_unique _ _
        ((sortP_perm _).trans (hpg.trans (sortP_perm _).symm))
        (sortP_sorted _) (sortP_sorted _) hndk
    rw [hsort_eq]
  · push_neg at hall
    obtain ⟨q, hq, hne⟩ := hall
    have herr : make_hashable q.2 = .error .typeError := by
      cases hmh : make_hashable q.2 with
      | ok h => exact absurd hmh (hne h)
      | error e => cases e; rfl
    rw [mh_kwargs_error l1 ⟨q, hq, herr⟩,
      mh_kwargs_error l2 ⟨q, hperm.mem_iff.mp hq, herr⟩]

/-! ### Concrete fixtures for keyword-order independence -/

/-- The key derived for a call with no positional arguments and keyword
arguments `a=1, b=2` (in either textual order). -/
def abKey : HashV × HashV :=
  (.tupleH [], .tupleH [.tupleH [.strH "a", .intH 1], .tupleH [.strH "b", .intH 2]])

/-- The decorator's engine after a first miss-and-store call with
`a=1, b=2`. -/
def kwFirstCache : LRUCache (HashV × HashV) (Option Int) :=
  { max_size := 10, ttl := none, store := [(abKey, some 7, none)],
    hits := 0, misses := 1, evictions := 0 }

/-- The same engine after the second call hits the entry. -/
def kwSecondCache : LRUCache (HashV × HashV) (Option Int) :=
  { max_size := 10, ttl := none, store := [(abKey, some 7, none)],
    hits := 1, misses := 1, evictions := 0 }

/-- C7: keyword-argument canonicalization is order-independent.  For any
two kwargs dicts binding the same (pairwise-distinct) keyword names to
the same values in different textual orders, `make_hashable` produces
identical results — mapping canonicalization sorts the pairs by
canonicalized key — hence key derivation yields identical keys for the
two calls; concretely, after `wrapped(a=1, b=2)` stores a result, the
call `wrapped(b=2, a=1)` hits the same cache entry and does not invoke
the function again. -/
theorem C7_kwargs_order_independent :
    (∀ (l1 l2 : List (String × PyObj)), l1.Perm l2 → (l1.map Prod.fst).Nodup →
        make_hashable (kwargsToDict l1) = make_hashable (kwargsToDict l2)) ∧
    (∀ (l1 l2 : List (String × PyObj)) (pargs : List PyObj), l1.Perm l2 →
        (l1.map Prod.fst).Nodup → deriveKey pargs l1 = deriveKey pargs l2) ∧
    (wrapper (fun _ _ => (some 7 : Option Int)) (LRUCache.init 10 none) 0 []
        [("a", .intV 1), ("b", .intV 2)]
      = (.ok (some 7, kwFirstCache), 1)) ∧
    (wrapper (fun _ _ => (some 9 : Option Int)) kwFirstCache 0 []
        [("b", .intV 2), ("a", .intV 1)]
      = (.ok (some 7, kwSecondCache), 0)) := by
  refine ⟨kwargs_canonical_eq, ?_, by decide, by decide⟩
  intro l1 l2 pargs hperm hnd
  have h := kwargs_canonical_eq l1 l2 hperm hnd
  unfold deriveKey
  rw [h]

/-- Witness for C7 at the concrete reordered kwargs lists. -/
theorem C7_kwargs_order_independent_witness :
    make_hashable (kwargsToDict [("a", .intV 1), ("b", .intV 2)])
      = make_hashable (kwargsToDict [("b", .intV 2), ("a", .intV 1)]) ∧
    deriveKey [] [("a", .intV 1), ("b", .intV 2)]
      = deriveKey [] [("b", .intV 2), ("a", .intV 1)] :=
  ⟨C7_kwargs_order_independent.1 [("a", .intV 1), ("b", .intV 2)]
      [("b", .intV 2), ("a", .intV 1)] (List.Perm.swap _ _ _) (by decide),
   C7_kwargs_order_independent.2.1 [("a", .intV 1), ("b", .intV 2)]
      [("b", .intV 2), ("a", .intV 1)] [] (List.Perm.swap _ _ _) (by decide)⟩
